import Mathlib

/-!
Verification development for the nekifoch plugin (Rust sources under `src/`).

The development shallowly embeds the pure core of the plugin:

* the configuration file is represented by its list of lines
  (the `'\n'`-split pieces of the file's text; rejoining with `'\n'`
  is a bijection onto texts, so equality of line lists is equality of
  file bytes);
* external processes (`fc-list`, `kitty +runpy`, `pidof`, `kill`) are
  represented by their already-parsed results (`installed` and
  `kitty_fonts` lists); the reload signal is a side effect outside the
  file model;
* Neovim host surfaces (buffers, floating windows) are represented by
  an `Option String` holding the text of the single live panel, and
  `err_writeln`/`out_write` notices accumulate in a list;
* `f32` values are represented by exact decimals (`Dec`): every
  numeral the plugin manipulates is parsed from / rendered to decimal
  text. Where a claim's truth depends on binary32 rounding, the
  rounding itself is modelled (`roundF32Dec`, round to nearest, ties
  to even) and exact-decimal computations are used only on its fixed
  points, where `f32` arithmetic is exact. The non-finite `inf`/`nan`
  are tracked only by the parse success predicate `parsesAsF32`.
-/

namespace Nekifoch

/-- Whitespace characters matched by the Rust regex class `\\s` and by
`str::trim` (the Unicode `White_Space` set, by codepoint). -/
def rustWS (c : Char) : Bool :=
  let n := c.toNat
  [0x9, 0xA, 0xB, 0xC, 0xD, 0x20, 0x85, 0xA0, 0x1680,
   0x2028, 0x2029, 0x202F, 0x205F, 0x3000].contains n
  || (Nat.ble 0x2000 n && Nat.ble n 0x200A)

/-- If `pat` is a prefix of `l`, return the remainder, else `none`. -/
def dropPrefixChars : List Char → List Char → Option (List Char)
  | [], rest => some rest
  | _ :: _, [] => none
  | p :: ps, c :: cs => if c = p then dropPrefixChars ps cs else none

theorem dropPrefixChars_eq_some {pat l rest : List Char} :
    dropPrefixChars pat l = some rest ↔ l = pat ++ rest := by
  induction pat generalizing l with
  | nil => cases l <;> simp [dropPrefixChars]
  | cons p ps ih =>
    cases l with
    | nil => simp [dropPrefixChars]
    | cons c cs =>
      by_cases h : c = p
      · subst h
        simp [dropPrefixChars, ih]
      · simp [dropPrefixChars, h, Ne.symm h]

theorem dropPrefixChars_append (pat rest : List Char) :
    dropPrefixChars pat (pat ++ rest) = some rest :=
  dropPrefixChars_eq_some.mpr rfl

/-- `line` starts with (string) `pat`, character for character. -/
def startsWithStr (pat line : String) : Bool :=
  (dropPrefixChars pat.data line.data).isSome

/-- `font.replace(" ", "")`: remove every space character. -/
def stripSpaces (s : String) : String :=
  String.mk (s.data.filter (fun c => c ≠ ' '))

/-- Rust `str::trim_start_matches(pat)`: repeatedly remove `pat` as a
prefix. Structural recursion on fuel so the kernel can evaluate it; a
nonempty `pat` consumes at least one character per round, so fuel
`l.length + 1` is never exhausted. -/
def trimStartDataAux (pat : List Char) : ℕ → List Char → List Char
  | 0, l => l
  | fuel + 1, l =>
    match dropPrefixChars pat l with
    | some rest => if pat.isEmpty then l else trimStartDataAux pat fuel rest
    | none => l

def trimStartData (pat l : List Char) : List Char :=
  trimStartDataAux pat (l.length + 1) l

def trimStartMatches (pat s : String) : String :=
  String.mk (trimStartData pat.data s.data)

/-- Rust `str::trim`: drop leading and trailing whitespace. -/
def rustTrim (s : String) : String :=
  String.mk (((s.data.dropWhile rustWS).reverse.dropWhile rustWS).reverse)


/-- Numeric value of a digit list, most significant digit first. -/
def digitsToNat (ds : List Char) : ℕ :=
  ds.foldl (fun n c => 10 * n + (c.toNat - 48)) 0

/-- Optional sign prefix of a Rust float literal. -/
def splitSign : List Char → ℤ × List Char
  | '+' :: r => (1, r)
  | '-' :: r => (-1, r)
  | l => (1, l)

/-- Exact decimal number `num / 10 ^ exp`: the value space in which the
model computes the plugin's `f32` numerals (on the decimal values the
plugin manipulates, `f32` arithmetic and printing are exact; see the
module comment). -/
structure Dec where
  num : ℤ
  exp : ℕ
deriving DecidableEq

/-- Rational value of a decimal number, used in specification
statements only. -/
def Dec.val (d : Dec) : ℚ := (d.num : ℚ) / (10 : ℚ) ^ d.exp

/-- Mantissa of the Rust `f32::from_str` grammar: `Digits '.'? Digits?`
or `'.' Digits`, at least one digit overall. Returns the unsigned
decimal value and the unconsumed remainder. -/
def parseMantissa (l : List Char) : Option (Dec × List Char) :=
  let ip := l.takeWhile Char.isDigit
  let r1 := l.dropWhile Char.isDigit
  match r1 with
  | '.' :: r2 =>
    let fp := r2.takeWhile Char.isDigit
    let r3 := r2.dropWhile Char.isDigit
    if ip.isEmpty && fp.isEmpty then none
    else some (⟨digitsToNat (ip ++ fp), fp.length⟩, r3)
  | _ => if ip.isEmpty then none else some (⟨digitsToNat ip, 0⟩, r1)

/-- Exponent part after `e`/`E`: optional sign, then only digits, at
least one. -/
def parseExpPart (l : List Char) : Option ℤ :=
  let p := splitSign l
  if p.2.isEmpty || !(p.2.all Char.isDigit) then none
  else some (p.1 * digitsToNat p.2)

/-- Apply a decimal exponent `e` to a decimal number. -/
def Dec.scale (d : Dec) (e : ℤ) : Dec :=
  if 0 ≤ e then ⟨d.num * 10 ^ e.toNat, d.exp⟩
  else ⟨d.num, d.exp + (-e).toNat⟩

/-- Exact value of a finite Rust `f32` literal: the `f32::from_str`
grammar minus `inf`/`infinity`/`nan`, without rounding to binary. -/
def parseF32 (s : String) : Option Dec :=
  let p := splitSign s.data
  match parseMantissa p.2 with
  | none => none
  | some (m, r) =>
    let sm : Dec := ⟨p.1 * m.num, m.exp⟩
    match r with
    | [] => some sm
    | 'e' :: r2 => (parseExpPart r2).map (Dec.scale sm)
    | 'E' :: r2 => (parseExpPart r2).map (Dec.scale sm)
    | _ => none

/-- The keywords `inf`, `infinity`, `nan`, case-insensitive. -/
def isInfNanBody (l : List Char) : Bool :=
  let w := l.map Char.toLower
  w == "inf".data || w == "infinity".data || w == "nan".data

/-- Success predicate of Rust `s.parse::<f32>()`: a finite numeral or a
signed `inf`/`infinity`/`nan`. -/
def parsesAsF32 (s : String) : Bool :=
  (parseF32 s).isSome || isInfNanBody (splitSign s.data).2

/-- Character of a decimal digit. -/
def digitChar (n : ℕ) : Char := Char.ofNat (48 + n)

/-- Decimal digit characters of a natural number, most significant
first. Structural recursion on fuel (`n` shrinks by a factor of ten
each round, so fuel `n + 1` is never exhausted). -/
def natCharsAux : ℕ → ℕ → List Char
  | 0, _ => []
  | fuel + 1, n =>
    if n = 0 then [] else natCharsAux fuel (n / 10) ++ [digitChar (n % 10)]

def natChars (n : ℕ) : List Char :=
  if n = 0 then ['0'] else natCharsAux (n + 1) n

/-- Drop trailing decimal zeros: the canonical (shortest) decimal
form of `num / 10 ^ exp`. -/
def stripZeros : ℤ → ℕ → ℤ × ℕ
  | n, 0 => (n, 0)
  | n, k + 1 => if n % 10 = 0 then stripZeros (n / 10) k else (n, k + 1)

/-- Rendering of a decimal value, matching Rust's `Display` for `f32`
on values exactly representable in decimal: shortest decimal digits,
fractional part omitted when integral. -/
def fmtF32 (d : Dec) : String :=
  if d.num = 0 then "0"
  else
    let p := stripZeros d.num d.exp
    let m := p.1.natAbs
    let k := p.2
    let sgn : List Char := if p.1 < 0 then ['-'] else []
    if k = 0 then String.mk (sgn ++ natChars m)
    else
      let frac := natChars (m % 10 ^ k)
      let pad := List.replicate (k - frac.length) '0'
      String.mk (sgn ++ natChars (m / 10 ^ k) ++ ['.'] ++ pad ++ frac)

/-- Binade test for binary32 rounding: does the positive value
`n / 10 ^ k` lie in `[2 ^ 23 * 2 ^ e, 2 ^ 24 * 2 ^ e)`? Stated over
integers so the kernel can evaluate it. -/
def binadeCond (n k : ℕ) (e : ℤ) : Bool :=
  if 0 ≤ e then
    decide (2 ^ 23 * 10 ^ k * 2 ^ e.toNat ≤ n) &&
    decide (n < 2 ^ 24 * 10 ^ k * 2 ^ e.toNat)
  else
    decide (2 ^ 23 * 10 ^ k ≤ n * 2 ^ (-e).toNat) &&
    decide (n * 2 ^ (-e).toNat < 2 ^ 24 * 10 ^ k)

/-- The binary32 binade exponent of `n / 10 ^ k`: the `e` with
`2 ^ 23 ≤ n / (10 ^ k * 2 ^ e) < 2 ^ 24`, searched over the finite
`f32` normal range. -/
def findBinade (n k : ℕ) : Option ℤ :=
  ((List.range 280).map (fun i => (i : ℤ) - 150)).find? (fun e => binadeCond n k e)

/-- Round the positive value `n / 10 ^ k` to an integer multiple of
`2 ^ e`: round to nearest, ties to even. -/
def roundMantissa (n k : ℕ) (e : ℤ) : ℕ :=
  let N := if 0 ≤ e then n else n * 2 ^ (-e).toNat
  let D := if 0 ≤ e then 10 ^ k * 2 ^ e.toNat else 10 ^ k
  let m0 := N / D
  let r := N % D
  if 2 * r < D then m0
  else if D < 2 * r then m0 + 1
  else if m0 % 2 = 0 then m0 else m0 + 1

/-- The exact decimal form of the dyadic `s * m * 2 ^ e`. -/
def dyadicToDec (s : ℤ) (m : ℕ) (e : ℤ) : Dec :=
  if 0 ≤ e then ⟨s * (m * 2 ^ e.toNat : ℕ), 0⟩
  else ⟨s * (m * 5 ^ (-e).toNat : ℕ), (-e).toNat⟩

/-- Round an exact decimal to the nearest IEEE binary32 value (round
to nearest, ties to even), returned as an exact decimal: the model of
what Rust `f32` parsing and arithmetic make of a decimal value. Only
the normal `f32` range is modelled; values outside it collapse to the
`⟨0, 0⟩` fallback (the claims never reach subnormals or overflow). -/
def roundF32Dec (d : Dec) : Dec :=
  if d.num = 0 then ⟨0, 0⟩
  else
    match findBinade d.num.natAbs d.exp with
    | some e => dyadicToDec d.num.sign (roundMantissa d.num.natAbs d.exp e) e
    | none => ⟨0, 0⟩

/-- Value equality of exact decimals, decided on canonical
(trailing-zero stripped) forms. -/
def Dec.sameVal (a b : Dec) : Bool :=
  stripZeros a.num a.exp == stripZeros b.num b.exp

example : roundF32Dec ⟨120, 1⟩ = ⟨1200000000000000000000, 20⟩ := by decide
example : Dec.sameVal (roundF32Dec ⟨120, 1⟩) ⟨120, 1⟩ = true := by decide
example : Dec.sameVal (roundF32Dec ⟨125, 1⟩) ⟨125, 1⟩ = true := by decide
example : Dec.sameVal (roundF32Dec ⟨1, 1⟩) ⟨1, 1⟩ = false := by decide

example : parseF32 "12.0" = some ⟨120, 1⟩ := by decide
example : parseF32 "12.5" = some ⟨125, 1⟩ := by decide
example : parseF32 "abc" = none := by decide
example : parseF32 "" = none := by decide
example : parseF32 "-1e2" = some ⟨-100, 0⟩ := by decide
example : parseF32 ".5" = some ⟨5, 1⟩ := by decide
example : parseF32 "1e" = none := by decide
example : parsesAsF32 "inf" = true := by decide
example : parsesAsF32 "12abc" = false := by decide
example : fmtF32 ⟨125, 1⟩ = "12.5" := by decide
example : fmtF32 ⟨120, 1⟩ = "12" := by decide
example : fmtF32 ⟨140, 1⟩ = "14" := by decide
example : fmtF32 ⟨0, 3⟩ = "0" := by decide
example : fmtF32 ⟨-125, 2⟩ = "-1.25" := by decide
example : fmtF32 ⟨105, 2⟩ = "1.05" := by decide

/-- `HashMap::insert` on the function model of a string map: the new
binding overwrites any previous one for the same key. -/
def hmInsert (m : String → Option String) (k v : String) : String → Option String :=
  fun x => if x = k then some v else m x

/-- `Utils::get_cached_installed_fonts` (src/src/utils.rs:569): the map
built from the installed-fonts list, keyed by the space-stripped name,
valued by the original name (`font.replace(" ", "")`). The `OnceLock`
cache only memoizes this computation; the model takes the
`fc-list`-derived `installed` list as a parameter. -/
def get_cached_installed_fonts (installed : List String) : String → Option String :=
  installed.foldl (fun m font => hmInsert m (stripSpaces font) font) (fun _ => none)

/-- `Utils::compare_fonts_with_kitty_list_fonts` (src/src/utils.rs:367):
an installed font enters the catalog iff the kitty-supported set
contains its exact name; the key is the space-stripped name, the value
the original name. `kitty_fonts` stands for the parsed result of the
`kitty +runpy` enumeration (a `HashSet`, here a list with exact-name
membership). -/
def compare_fonts_with_kitty_list_fonts
    (installed_fonts : List String) (kitty_fonts : List String) :
    String → Option String :=
  installed_fonts.foldl
    (fun m font =>
      if kitty_fonts.contains font then hmInsert m (stripSpaces font) font else m)
    (fun _ => none)

/-- A line matches the anchored directive regex `(?m)^(key\s+)(.*)`:
it starts with `key` followed by at least one whitespace character.
(The model is line-wise: within a line `\s` cannot meet `'\n'`.) -/
def lineMatches (key line : String) : Bool :=
  match dropPrefixChars key.data line.data with
  | some (c :: _) => rustWS c
  | _ => false

/-- Rewriting of one line under `regex.replace_all` with pattern
`(?m)^(key\s+)(.*)` and replacement `caps[1] ++ value`: the whole
whitespace run after the key is capture 1 and is kept, the rest of the
line is capture 2 and becomes `value`. Non-matching lines are kept
verbatim. -/
def rewriteLine (key value line : String) : String :=
  match dropPrefixChars key.data line.data with
  | some (c :: cs) =>
    if rustWS c then
      String.mk (key.data ++ (c :: cs).takeWhile rustWS ++ value.data)
    else line
  | _ => line

/-- `Utils::apply_regex_replace` (src/src/utils.rs:201) at the two
patterns the plugin uses, on the line model of the file: `replace_all`
rewrites every matching line. (Caveat, discussed with C2: when a line
consists of the key followed by whitespace only, the real regex lets
`\s+` cross the newline; the claims' theorems exclude that case.) -/
def apply_regex_replace (key value : String) (lines : List String) : List String :=
  lines.map (rewriteLine key value)

/-- `Utils::replace_font_family` (src/src/utils.rs:477): resolve the
space-stripped key in the installed-fonts cache; on a hit rewrite the
`font_family` lines (then reload kitty — outside the file model),
otherwise fail with the `Custom "Font not found"` error and never touch
the file. -/
def replace_font_family (installed : List String) (new_font_family_no_spaces : String)
    (lines : List String) : Except String (List String) :=
  match get_cached_installed_fonts installed new_font_family_no_spaces with
  | some new_font_family =>
    Except.ok (apply_regex_replace "font_family" new_font_family lines)
  | none => Except.error "Font not found"

/-- File contents after `Utils::replace_font_family`: unchanged when
the call fails. -/
def fileAfterReplaceFamily (installed : List String) (key : String)
    (lines : List String) : List String :=
  match replace_font_family installed key lines with
  | Except.ok out => out
  | Except.error _ => lines

/-- `Utils::replace_font_size` (src/src/utils.rs:530): rewrite the
`font_size` lines with the rendered size (`format!("{}{}", caps[1],
size)`), then reload kitty (outside the file model). -/
def replace_font_size (size : Dec) (lines : List String) : List String :=
  apply_regex_replace "font_size" (fmtF32 size) lines

/-- The two fields `Utils::get` extracts. -/
structure FontSettings where
  family : String
  size_text : String
deriving DecidableEq

/-- `Utils::get` (src/src/utils.rs:246) on the content of an existing
configuration file: one pass over the lines; a line starting with the
literal `"font_family "` sets the family to the remainder
(`trim_start_matches` then `trim`); a line starting with
`"font_size "` sets the size text to the trimmed remainder when it
parses as an `f32`, and resets it otherwise; missing values default to
`""` and `"default"`. -/
def get (lines : List String) : FontSettings :=
  let r :=
    lines.foldl
      (fun (acc : Option String × Option String) line =>
        if startsWithStr "font_family " line then
          (some (rustTrim (trimStartMatches "font_family " line)), acc.2)
        else if startsWithStr "font_size " line then
          let size_str := rustTrim (trimStartMatches "font_size " line)
          (acc.1, if parsesAsF32 size_str then some size_str else none)
        else acc)
      (none, none)
  ⟨r.1.getD "", r.2.getD "default"⟩

example : stripSpaces "Fira Code" = "FiraCode" := by decide
example :
    compare_fonts_with_kitty_list_fonts ["Fira Code", "Arial"] ["FiraCode", "Arial"] "Arial"
      = some "Arial" := by decide
example :
    compare_fonts_with_kitty_list_fonts ["Fira Code", "Arial"] ["FiraCode", "Arial"] "FiraCode"
      = none := by decide
example : lineMatches "font_family" "font_family Arial" = true := by decide
example : lineMatches "font_family" "font_familyArial" = false := by decide
example : rewriteLine "font_family" "Fira Code" "font_family \t Arial x" = "font_family \t Fira Code" := by decide
example : get ["font_family Fira Code", "font_size 12.0"] = ⟨"Fira Code", "12.0"⟩ := by decide
example : get ["# c"] = ⟨"", "default"⟩ := by decide
example : get ["font_size abc"] = ⟨"", "default"⟩ := by decide
example : get ["font_size 11", "font_size x"] = ⟨"", "default"⟩ := by decide
example : get ["font_family\tArial"] = ⟨"", "default"⟩ := by decide

/-- Externally enumerated font lists: `installed` is the parsed
`fc-list` output (`Utils::list_installed_fonts`), `kitty` the parsed
`kitty +runpy` family set. -/
structure Env where
  installed : List String
  kitty : List String

/-- State of `FloatWindow` plus the pieces of `App` the claims touch:
the configuration file's lines, the single floating window (modelled
by its buffer text; `none` = closed), and the user-visible notices
(`err_writeln`/`out_write`/`print` output, in order). Host buffer and
window creation are modelled as succeeding; geometry, borders,
keymaps, cursor position and highlighting are presentation details
without bearing on the claims and are not modelled. -/
structure AppState where
  config_lines : List String
  window : Option String
  notices : List String
deriving DecidableEq

def addNotice (st : AppState) (msg : String) : AppState :=
  { st with notices := st.notices ++ [msg] }

/-- `FloatWindow::open_window` (src/src/core/window.rs:85): when a
window already exists, a no-op except for the "Window is already open"
notice, returning `Ok(())`; otherwise create the buffer with the given
content and open the window. -/
def open_window (st : AppState) (content : String) : AppState × Except String Unit :=
  if st.window.isSome then (addNotice st "Window is already open", Except.ok ())
  else ({ st with window := some content }, Except.ok ())

/-- `FloatWindow::close_win` (src/src/core/window.rs:304): when no
window exists, a no-op except for the "Window is already closed"
notice, returning `Ok(())`; otherwise `Option::take` clears the stored
handle first, and the host's close result (`hostClose`, the outcome of
`win.close(false)`) is returned as is. -/
def close_win (st : AppState) (hostClose : Except String Unit) :
    AppState × Except String Unit :=
  if st.window.isNone then (addNotice st "Window is already closed", Except.ok ())
  else ({ st with window := none }, hostClose)

/-- Buffer text of the size-control panel
(`FloatWindow::f_size_win`, src/src/core/window.rs:184-185). -/
def sizeWinContent (current_size : Dec) : String :=
  "\t\t\t\t\nCurrent size: [ " ++ fmtF32 current_size ++ " ]\n\t\t\t\t"

/-- `FloatWindow::f_size_win` (src/src/core/window.rs:184), through
`create_window`/`open_window`. -/
def f_size_win (st : AppState) (current_size : Dec) : AppState × Except String Unit :=
  open_window st (sizeWinContent current_size)

/-- `FloatWindow::f_family_win` (src/src/core/window.rs:153): panel
whose buffer is the item list joined by newlines. -/
def f_family_win (st : AppState) (items : List String) : AppState × Except String Unit :=
  open_window st (String.intercalate "\n" items)

/-- `App::update_size_display` (src/src/core.rs:282): replace the open
window's buffer text with the freshly formatted size, or report
"Window is not open.". -/
def update_size_display (st : AppState) (new_size : Dec) : AppState :=
  match st.window with
  | some _ => { st with window := some (sizeWinContent new_size) }
  | none => addNotice st "Window is not open."

/-- `App::set_font_size` (src/src/core.rs:212). With an argument,
mutate the file (`replace_font_size`) and confirm via `out_write`;
without one, read the current settings and open the size panel when
the current size text parses, else report an error notice. Both
callers that supply an argument render an `f32` with `to_string` and
the function parses it back — the identity on `f32` — so the model
passes the `Dec` value directly and the source's unreachable
"Invalid font size argument" branch has no counterpart. The trailing
buffer reconfiguration is presentation only. -/
def set_font_size (st : AppState) (arg : Option Dec) : AppState × Except String Unit :=
  match arg with
  | some size =>
    let st1 := { st with config_lines := replace_font_size size st.config_lines }
    (addNotice st1 ("Font size set to " ++ fmtF32 size), Except.ok ())
  | none =>
    let fonts := get st.config_lines
    match parseF32 fonts.size_text with
    | some current_size => f_size_win st current_size
    | none => (addNotice st "Invalid current font size in config.", Except.ok ())

/-- The exact decimal sum `current + 0.5`. The source computes this
sum in `f32`; the two agree exactly when the operand and the sum are
binary32 values (`roundF32Dec`-fixed points), which is what C7's
hypotheses require — its counterexample shows the divergence at
`2 ^ 23`, where `f32` rounding absorbs the step. -/
def addHalf (d : Dec) : Dec :=
  ⟨d.num * 10 + 5 * (10 : ℤ) ^ d.exp, d.exp + 1⟩

/-- `current - 0.5`, exact on decimals. -/
def subHalf (d : Dec) : Dec :=
  ⟨d.num * 10 - 5 * (10 : ℤ) ^ d.exp, d.exp + 1⟩

/-- `App::size_up` (src/src/core.rs:246): read the current size; when
its text parses, add the fixed 0.5 step, write it back through
`set_font_size`, and refresh the panel text; otherwise only an error
notice. (`fonts.get("size")` is always present, so the source's
"Font size not found" branch is unreachable.) The source's parse and
increment run in `f32`; this model computes the exact decimals, so it
coincides with the program exactly on sizes that are `roundF32Dec`
fixed points with a fixed-point 0.5-step — the domain C7 is restricted
to, with its counterexample exhibiting the divergence outside it. -/
def size_up (st : AppState) : AppState :=
  let fonts := get st.config_lines
  match parseF32 fonts.size_text with
  | some current_size =>
    let new_size := addHalf current_size
    update_size_display (set_font_size st (some new_size)).1 new_size
  | none => addNotice st "Invalid font size found in the configuration file."

/-- `App::size_down` (src/src/core.rs:264), symmetric to `size_up`. -/
def size_down (st : AppState) : AppState :=
  let fonts := get st.config_lines
  match parseF32 fonts.size_text with
  | some current_size =>
    let new_size := subHalf current_size
    update_size_display (set_font_size st (some new_size)).1 new_size
  | none => addNotice st "Invalid font size found in the configuration file."

/-- Insertion sort by the lexicographic string order, the model of
Rust's `Vec::sort` on the collected font names. -/
def insertSorted (s : String) : List String → List String
  | [] => [s]
  | x :: xs => if s ≤ x then s :: x :: xs else x :: insertSorted s xs

def sortStrings (l : List String) : List String := l.foldr insertSorted []

/-- Association-list insert with `HashMap` overwrite semantics (one
pair per key). -/
def assocUpsert (l : List (String × String)) (k v : String) : List (String × String) :=
  if l.any (fun p => p.1 = k) then l.map (fun p => if p.1 = k then (k, v) else p)
  else l ++ [(k, v)]

/-- Key-value pairs of `compare_fonts_with_kitty_list_fonts` as an
association list; `HashMap` iteration order is unspecified and every
consumer sorts the extracted values, so this list's order never shows
through. -/
def compatiblePairs (env : Env) : List (String × String) :=
  env.installed.foldl
    (fun l font =>
      if env.kitty.contains font then assocUpsert l (stripSpaces font) font else l)
    []

/-- `App::set_font_family` (src/src/core.rs:180). With an argument,
`replace_font_family` then an `out_write` confirmation, the error
propagating with no state change; without one, open the picker with
the sorted compatible names (a window-open failure would be absorbed
into an out_write notice, and the host is modelled as succeeding). -/
def set_font_family (env : Env) (st : AppState) (arg : Option String) :
    AppState × Except String Unit :=
  match arg with
  | some font_family =>
    match replace_font_family env.installed font_family st.config_lines with
    | Except.ok out =>
      (addNotice { st with config_lines := out } ("Font family set to " ++ font_family),
       Except.ok ())
    | Except.error e => (st, Except.error e)
  | none =>
    let compatible := sortStrings ((compatiblePairs env).map Prod.snd)
    ((f_family_win st compatible).1, Except.ok ())

/-- The four static options of `App::show_main_menu`
(src/src/core.rs:115). -/
def menuOptions : List String :=
  ["Check current font", "Set font family", "Set font size", "Show installed fonts"]

/-- `App::show_main_menu` (src/src/core.rs:114): opens the menu panel
through `f_family_win`; menu keymap wiring is presentation only. -/
def show_main_menu (st : AppState) : AppState × Except String Unit :=
  f_family_win st menuOptions

/-- Debug (`{:?}`) rendering of a string, escapes elided (never hit by
the claims). -/
def debugQuote (s : String) : String := "\"" ++ s ++ "\""

/-- `App::get_current_font` (src/src/core.rs:150): print the current
family and size. -/
def get_current_font (st : AppState) : AppState :=
  let fonts := get st.config_lines
  addNotice st
    ("\nFont family: " ++ debugQuote fonts.family ++
     "\nFont size: " ++ debugQuote fonts.size_text ++ "\n")

/-- `get_fonts_list` (src/src/core/command.rs:92): print the sorted
compatible font names. -/
def get_fonts_list (env : Env) (st : AppState) : AppState :=
  let compatible := sortStrings ((compatiblePairs env).map Prod.snd)
  addNotice st
    ("Available fonts:" ++ String.join (compatible.map (fun f => "  - " ++ f)))

/-- `Command` (src/src/core/command.rs:35). `setSize` carries the
already-parsed `Option<f32>`. -/
inductive Command where
  | mainMenu
  | sizeUp
  | sizeDown
  | close
  | check
  | setFont (arg : Option String)
  | setSize (arg : Option Dec)
  | list
deriving DecidableEq

/-- `Command::from_str` (src/src/core/command.rs:61). For `set_size`
the argument goes through `arg.and_then(|s| s.parse::<f32>().ok())`:
a supplied argument that does not parse yields `SetSize(None)`. -/
def Command.from_str (cmd : String) (arg : Option String) : Option Command :=
  if cmd = "" then some Command.mainMenu
  else if cmd = "size_up" then some Command.sizeUp
  else if cmd = "size_down" then some Command.sizeDown
  else if cmd = "close" then some Command.close
  else if cmd = "check" then some Command.check
  else if cmd = "set_font" then some (Command.setFont arg)
  else if cmd = "set_size" then some (Command.setSize (arg.bind parseF32))
  else if cmd = "list" then some Command.list
  else none

/-- `App::handle_command` (src/src/core.rs:89). The `close` arm's host
close call is modelled as succeeding. -/
def handle_command (env : Env) (st : AppState) : Command → AppState × Except String Unit
  | Command.mainMenu => show_main_menu st
  | Command.sizeUp => (size_up st, Except.ok ())
  | Command.sizeDown => (size_down st, Except.ok ())
  | Command.close => close_win st (Except.ok ())
  | Command.check => (get_current_font st, Except.ok ())
  | Command.setFont arg => set_font_family env st arg
  | Command.setSize arg => set_font_size st arg
  | Command.list => (get_fonts_list env st, Except.ok ())

example :
    (size_up ⟨["font_size 12.0"], some (sizeWinContent ⟨120, 1⟩), []⟩).config_lines
      = ["font_size 12.5"] := by decide
example :
    (size_up ⟨["font_size 12.0"], some (sizeWinContent ⟨120, 1⟩), []⟩).window
      = some (sizeWinContent ⟨125, 1⟩) := by decide
example : Command.from_str "set_size" (some "abc") = some (Command.setSize none) := by decide
example : Command.from_str "set_size" (some "14") = some (Command.setSize (some ⟨14, 0⟩)) := by decide
example : Command.from_str "bogus" none = none := by decide


/-! ### Shared helper lemmas -/

theorem mem_takeWhile_rustWS {l : List Char} {c : Char}
    (h : c ∈ l.takeWhile rustWS) : rustWS c = true := by
  induction l with
  | nil => simp [List.takeWhile] at h
  | cons x xs ih =>
    rw [List.takeWhile_cons] at h
    by_cases hx : rustWS x
    · simp [hx] at h
      rcases h with h | h
      · subst h; exact hx
      · exact ih h
    · simp [hx] at h

theorem takeWhile_dropWhile_nil (p : Char → Bool) (l : List Char) :
    (l.dropWhile p).takeWhile p = [] := by
  induction l with
  | nil => simp
  | cons x xs ih =>
    rw [List.dropWhile_cons]
    by_cases hx : p x
    · simp [hx, ih]
    · simp [List.takeWhile_cons, hx]

theorem takeWhile_append_of_all {p : Char → Bool} {w v : List Char}
    (hw : ∀ c ∈ w, p c = true) (hv : v.takeWhile p = []) :
    (w ++ v).takeWhile p = w := by
  induction w with
  | nil => simpa using hv
  | cons c cs ih =>
    have hc : p c = true := hw c (by simp)
    simp only [List.cons_append, List.takeWhile_cons, hc, if_true]
    rw [ih (fun x hx => hw x (by simp [hx]))]

/-- Fold that keeps the last element satisfying a predicate. -/
def optOr {α} : Option α → Option α → Option α
  | some a, _ => some a
  | none, b => b

def lastHit {α} (p : α → Bool) (l : List α) : Option α :=
  l.foldl (fun acc x => if p x then some x else acc) none

theorem foldl_lastHit {α} (p : α → Bool) (l : List α) :
    ∀ acc : Option α,
      l.foldl (fun a x => if p x then some x else a) acc = optOr (lastHit p l) acc := by
  induction l with
  | nil => intro acc; simp [lastHit, optOr]
  | cons x xs ih =>
    intro acc
    have hL := ih (if p x then some x else acc)
    have hR := ih (if p x then some x else none)
    simp only [lastHit, List.foldl_cons] at *
    rw [hL, hR]
    cases hfs : xs.foldl (fun a x => if p x then some x else a) none with
    | some w => simp [optOr]
    | none => by_cases hx : p x <;> simp [optOr, hx]

theorem lastHit_cons {α} (p : α → Bool) (x : α) (xs : List α) :
    lastHit p (x :: xs) = optOr (lastHit p xs) (if p x then some x else none) := by
  simp only [lastHit, List.foldl_cons]
  exact foldl_lastHit p xs (if p x then some x else none)

theorem lastHit_mem {α} {p : α → Bool} {l : List α} {v : α}
    (h : lastHit p l = some v) : v ∈ l ∧ p v = true := by
  induction l with
  | nil => simp [lastHit] at h
  | cons x xs ih =>
    rw [lastHit_cons] at h
    cases hfs : lastHit p xs with
    | some w =>
      rw [hfs] at h
      simp [optOr] at h
      subst h
      have := ih hfs
      exact ⟨by simp [this.1], this.2⟩
    | none =>
      rw [hfs] at h
      by_cases hx : p x <;> simp [optOr, hx] at h
      subst h
      exact ⟨by simp, hx⟩

theorem lastHit_eq_none {α} {p : α → Bool} {l : List α}
    (h : lastHit p l = none) : ∀ x ∈ l, p x = false := by
  induction l with
  | nil => simp
  | cons x xs ih =>
    rw [lastHit_cons] at h
    cases hfs : lastHit p xs with
    | some w => rw [hfs] at h; simp [optOr] at h
    | none =>
      rw [hfs] at h
      by_cases hx : p x
      · rw [if_pos hx] at h; simp [optOr] at h
      · intro y hy
        rcases List.mem_cons.mp hy with rfl | hmem
        · simpa using hx
        · exact ih hfs y hmem

theorem lastHit_isSome_iff {α} {p : α → Bool} {l : List α} :
    (lastHit p l).isSome = true ↔ ∃ x ∈ l, p x = true := by
  constructor
  · intro h
    cases hlv : lastHit p l with
    | none => rw [hlv] at h; simp at h
    | some v =>
      have hm := lastHit_mem hlv
      exact ⟨v, hm.1, hm.2⟩
  · intro h
    obtain ⟨y, hy, hpy⟩ := h
    cases hlv : lastHit p l with
    | some v => simp
    | none => exact absurd (lastHit_eq_none hlv y hy) (by simp [hpy])

/-! ### C9 -/

/-- C9: requesting to open a panel while one is open changes nothing
but the "Window is already open" notice and returns success; requesting
to close while none is open changes nothing but the "Window is already
closed" notice and returns success. -/
theorem C9_open_close_noop (st : AppState) (content : String)
    (hostClose : Except String Unit) :
    (st.window.isSome = true →
      (open_window st content).1.window = st.window ∧
      (open_window st content).1.config_lines = st.config_lines ∧
      (open_window st content).1.notices = st.notices ++ ["Window is already open"] ∧
      (open_window st content).2 = Except.ok ()) ∧
    (st.window = none →
      (close_win st hostClose).1.window = st.window ∧
      (close_win st hostClose).1.config_lines = st.config_lines ∧
      (close_win st hostClose).1.notices = st.notices ++ ["Window is already closed"] ∧
      (close_win st hostClose).2 = Except.ok ()) := by
  constructor
  · intro h
    simp [open_window, h, addNotice]
  · intro h
    simp [close_win, h, addNotice]

theorem C9_witness :
    ((open_window ⟨["font_size 12"], some "menu", []⟩ "text").1.window = some "menu" ∧
     (open_window ⟨["font_size 12"], some "menu", []⟩ "text").2 = Except.ok ()) ∧
    ((close_win ⟨["font_size 12"], none, []⟩ (Except.ok ())).1.window = none ∧
     (close_win ⟨["font_size 12"], none, []⟩ (Except.ok ())).2 = Except.ok ()) := by
  have h1 := (C9_open_close_noop ⟨["font_size 12"], some "menu", []⟩ "text" (Except.ok ())).1 rfl
  have h2 := (C9_open_close_noop ⟨["font_size 12"], none, []⟩ "text" (Except.ok ())).2 rfl
  exact ⟨⟨h1.1, h1.2.2.2⟩, ⟨h2.1, h2.2.2.2⟩⟩

/-! ### C10 -/

/-- C10: `close_win` on a state with an open panel always leaves the
stored window handle `None` — the handle is taken out of the state
before the host close runs, so even a failing host close cannot leave a
stale handle. -/
theorem C10_close_clears_handle (st : AppState) (hostClose : Except String Unit)
    (h : st.window.isSome = true) :
    (close_win st hostClose).1.window = none := by
  cases hw : st.window with
  | none => rw [hw] at h; simp at h
  | some w => simp [close_win, hw]

theorem C10_witness :
    (close_win ⟨["font_size 12"], some "panel", []⟩ (Except.error "host close failed")).1.window
      = none :=
  C10_close_clears_handle ⟨["font_size 12"], some "panel", []⟩ (Except.error "host close failed") rfl

/-! ### C3 -/

/-- C3 counterexample: with installed font "Fira Code" and a kitty set
that supports nothing, the compatible catalog has no entry for the
normalized key "FiraCode" — yet `replace_font_family` (which consults
the installed-fonts cache, not the catalog) succeeds and rewrites the
file, so the claim's "not in the compatible catalog implies error and
untouched file" is false. -/
theorem C3_counterexample :
    compare_fonts_with_kitty_list_fonts ["Fira Code"] [] "FiraCode" = none ∧
    replace_font_family ["Fira Code"] "FiraCode" ["font_family Arial"]
      = Except.ok ["font_family Fira Code"] ∧
    fileAfterReplaceFamily ["Fira Code"] "FiraCode" ["font_family Arial"]
      ≠ ["font_family Arial"] := by
  refine ⟨by decide, rfl, by decide⟩

/-- C3 amended: for every normalized key that is not present in the
cached installed-fonts map, `replace_font_family` returns the
`FontNotInstalled` error ("Font not found") and the configuration file
stays byte-identical (the failed resolution happens before any file
access). -/
theorem C3_missing_font_no_mutation (installed : List String) (key : String)
    (lines : List String)
    (h : get_cached_installed_fonts installed key = none) :
    replace_font_family installed key lines = Except.error "Font not found" ∧
    fileAfterReplaceFamily installed key lines = lines := by
  unfold replace_font_family fileAfterReplaceFamily replace_font_family
  rw [h]
  exact ⟨rfl, rfl⟩

theorem C3_witness :
    replace_font_family ["Arial"] "Helvetica" ["font_family Arial", "font_size 12"]
      = Except.error "Font not found" ∧
    fileAfterReplaceFamily ["Arial"] "Helvetica" ["font_family Arial", "font_size 12"]
      = ["font_family Arial", "font_size 12"] :=
  C3_missing_font_no_mutation ["Arial"] "Helvetica" ["font_family Arial", "font_size 12"]
    (by decide)


/-! ### C1 -/

/-- An installed font that lands in the catalog under key `k`. -/
def compatHit (kitty : List String) (k : String) (f : String) : Bool :=
  kitty.contains f && (stripSpaces f == k)

theorem catalog_foldl_lookup (kitty : List String) (k : String) (installed : List String) :
    ∀ m : String → Option String,
      (installed.foldl
        (fun m font => if kitty.contains font then hmInsert m (stripSpaces font) font else m) m) k
        = optOr (lastHit (compatHit kitty k) installed) (m k) := by
  induction installed with
  | nil => intro m; simp [lastHit, optOr]
  | cons f fs ih =>
    intro m
    rw [List.foldl_cons, ih, lastHit_cons]
    cases hfs : lastHit (compatHit kitty k) fs with
    | some w => simp [optOr]
    | none =>
      simp only [optOr]
      by_cases hm : f ∈ kitty
      · by_cases hk : stripSpaces f = k
        · simp [compatHit, hm, hk, hmInsert]
        · have hk2 : ¬ (k = stripSpaces f) := fun h => hk h.symm
          simp [compatHit, hm, hk, hk2, hmInsert]
      · simp [compatHit, hm]

/-- Pointwise description of `compare_fonts_with_kitty_list_fonts`:
the value at key `k` is the last installed font whose exact name is
kitty-supported and whose space-stripped name is `k`. -/
theorem catalog_lookup (installed kitty : List String) (k : String) :
    compare_fonts_with_kitty_list_fonts installed kitty k
      = lastHit (compatHit kitty k) installed := by
  have h := catalog_foldl_lookup kitty k installed (fun _ => none)
  unfold compare_fonts_with_kitty_list_fonts
  rw [h]
  cases lastHit (compatHit kitty k) installed <;> simp [optOr]

/-- C1 counterexample: on the spec's own example the catalog does not
resolve "FiraCode" to "Fira Code" — only the exact installed name is
checked against the terminal-supported set, and "Fira Code" (with the
space) is not in it. -/
theorem C1_counterexample :
    ¬ (compare_fonts_with_kitty_list_fonts ["Fira Code", "Arial"] ["FiraCode", "Arial"]
        "FiraCode" = some "Fira Code") := by decide

/-- C1 amended: the catalog has an entry under key `k` iff some
installed font's EXACT name is in the terminal-supported set and its
space-stripped name is `k`; every entry maps the space-stripped form to
the original installed name. On the spec's example the catalog
therefore holds only "Arial", and both "FiraCode" and "Helvetica"
resolve to none. -/
theorem C1_catalog_exact_match :
    (∀ installed kitty k,
      (compare_fonts_with_kitty_list_fonts installed kitty k).isSome = true
        ↔ ∃ f ∈ installed, kitty.contains f = true ∧ stripSpaces f = k) ∧
    (∀ installed kitty k v,
      compare_fonts_with_kitty_list_fonts installed kitty k = some v →
        v ∈ installed ∧ kitty.contains v = true ∧ stripSpaces v = k) ∧
    compare_fonts_with_kitty_list_fonts ["Fira Code", "Arial"] ["FiraCode", "Arial"] "Arial"
      = some "Arial" ∧
    compare_fonts_with_kitty_list_fonts ["Fira Code", "Arial"] ["FiraCode", "Arial"] "FiraCode"
      = none ∧
    compare_fonts_with_kitty_list_fonts ["Fira Code", "Arial"] ["FiraCode", "Arial"] "Helvetica"
      = none := by
  refine ⟨?_, ?_, by decide, by decide, by decide⟩
  · intro installed kitty k
    rw [catalog_lookup, lastHit_isSome_iff]
    constructor
    · intro h
      obtain ⟨f, hf, hp⟩ := h
      rw [compatHit, Bool.and_eq_true, beq_iff_eq] at hp
      exact ⟨f, hf, hp.1, hp.2⟩
    · intro h
      obtain ⟨f, hf, hc, hk⟩ := h
      exact ⟨f, hf, by rw [compatHit, Bool.and_eq_true, beq_iff_eq]; exact ⟨hc, hk⟩⟩
  · intro installed kitty k v h
    rw [catalog_lookup] at h
    have hm := lastHit_mem h
    have hp := hm.2
    rw [compatHit, Bool.and_eq_true, beq_iff_eq] at hp
    exact ⟨hm.1, hp.1, hp.2⟩

theorem C1_witness :
    "Arial" ∈ ["Fira Code", "Arial"] ∧
    (["FiraCode", "Arial"] : List String).contains "Arial" = true ∧
    stripSpaces "Arial" = "Arial" :=
  C1_catalog_exact_match.2.1 ["Fira Code", "Arial"] ["FiraCode", "Arial"] "Arial" "Arial"
    (by decide)

/-! ### C6 -/

theorem foldl_perm_of_comm {α β} (f : β → α → β) :
    ∀ {l1 l2 : List α}, l1.Perm l2 →
      (∀ a ∈ l1, ∀ b ∈ l1, ∀ z, f (f z a) b = f (f z b) a) →
      ∀ z, l1.foldl f z = l2.foldl f z := by
  intro l1 l2 h
  induction h with
  | nil => intro _ z; rfl
  | cons x hperm ih =>
    intro comm z
    simp only [List.foldl_cons]
    exact ih
      (fun a ha b hb z' =>
        comm a (List.mem_cons_of_mem _ ha) b (List.mem_cons_of_mem _ hb) z')
      (f z x)
  | swap x y l =>
    intro comm z
    simp only [List.foldl_cons]
    rw [comm y (by simp) x (by simp) z]
  | trans h1 h2 ih1 ih2 =>
    intro comm z
    rw [ih1 comm z]
    exact ih2 (fun a ha b hb z' => comm a (h1.mem_iff.mpr ha) b (h1.mem_iff.mpr hb) z') z

/-- C6 counterexample: two distinct installed fonts with the same
space-stripped name, both kitty-supported. The HashMap insert lets the
later one win, so swapping the installed list changes the catalog's
value at that key. -/
theorem C6_counterexample :
    (["Fira Code", "FiraCode"] : List String).Perm ["FiraCode", "Fira Code"] ∧
    compare_fonts_with_kitty_list_fonts ["Fira Code", "FiraCode"] ["Fira Code", "FiraCode"]
      ≠ compare_fonts_with_kitty_list_fonts ["FiraCode", "Fira Code"] ["Fira Code", "FiraCode"] := by
  constructor
  · exact List.Perm.swap "FiraCode" "Fira Code" []
  · intro h
    have h1 : compare_fonts_with_kitty_list_fonts ["Fira Code", "FiraCode"]
        ["Fira Code", "FiraCode"] "FiraCode" = some "FiraCode" := by decide
    have h2 : compare_fonts_with_kitty_list_fonts ["FiraCode", "Fira Code"]
        ["Fira Code", "FiraCode"] "FiraCode" = some "Fira Code" := by decide
    rw [h, h2] at h1
    simp at h1

/-- C6 amended: for a fixed terminal-supported set, the catalog is
invariant under permutations of the installed-fonts list provided no
two distinct kitty-supported installed fonts share a space-stripped
key (then all HashMap inserts commute). -/
theorem C6_catalog_perm_invariant (kitty l1 l2 : List String)
    (hperm : l1.Perm l2)
    (hinj : ∀ a ∈ l1, ∀ b ∈ l1,
      kitty.contains a = true → kitty.contains b = true →
      stripSpaces a = stripSpaces b → a = b) :
    compare_fonts_with_kitty_list_fonts l1 kitty
      = compare_fonts_with_kitty_list_fonts l2 kitty := by
  unfold compare_fonts_with_kitty_list_fonts
  apply foldl_perm_of_comm _ hperm
  intro a ha b hb z
  by_cases hma : a ∈ kitty <;> by_cases hmb : b ∈ kitty
  · have hga : kitty.contains a = true := by simpa using hma
    have hgb : kitty.contains b = true := by simpa using hmb
    by_cases hk : stripSpaces a = stripSpaces b
    · have hab : a = b := hinj a ha b hb hga hgb hk
      subst hab; rfl
    · simp only [hga, hgb, if_true]
      funext x
      simp only [hmInsert]
      have hk2 : ¬ (stripSpaces b = stripSpaces a) := fun h => hk h.symm
      by_cases hxa : x = stripSpaces a <;> by_cases hxb : x = stripSpaces b
      · exact absurd (hxa.symm.trans hxb) hk
      · simp [hxa, hxb, hk]
      · simp [hxa, hxb, hk2]
      · simp [hxa, hxb]
  · simp [hma, hmb]
  · simp [hma, hmb]
  · simp [hma, hmb]

theorem C6_witness :
    compare_fonts_with_kitty_list_fonts ["Fira Code", "Arial"] ["Fira Code", "Arial"]
      = compare_fonts_with_kitty_list_fonts ["Arial", "Fira Code"] ["Fira Code", "Arial"] :=
  C6_catalog_perm_invariant ["Fira Code", "Arial"] ["Fira Code", "Arial"] ["Arial", "Fira Code"]
    (List.Perm.swap "Arial" "Fira Code" []) (by decide)


/-! ### C4 -/

theorem startsWithStr_iff_prefix {pat l : String} :
    startsWithStr pat l = true ↔ pat.data <+: l.data := by
  unfold startsWithStr
  cases h : dropPrefixChars pat.data l.data with
  | some rest =>
    simp only [Option.isSome_some, true_iff]
    exact ⟨rest, (dropPrefixChars_eq_some.mp h).symm⟩
  | none =>
    simp only [Option.isSome_none, Bool.false_eq_true, false_iff]
    intro hpre
    obtain ⟨rest, hrest⟩ := hpre
    rw [dropPrefixChars_eq_some.mpr hrest.symm] at h
    exact Option.noConfusion h

/-- A line cannot start with both `"font_family "` and `"font_size "`
(they differ within the first six characters), so the two branches of
the `get` scan are independent. -/
theorem family_size_disjoint (l : String)
    (h : startsWithStr "font_family " l = true) :
    startsWithStr "font_size " l = false := by
  by_contra hs
  rw [Bool.not_eq_false] at hs
  have h1 := startsWithStr_iff_prefix.mp h
  have h2 := startsWithStr_iff_prefix.mp hs
  have h3 : ("font_size ".data : List Char) <+: "font_family ".data :=
    List.prefix_of_prefix_length_le h2 h1 (by decide)
  exact absurd h3 (by decide)

/-- Fold that applies `g` to the last element satisfying `p`. -/
theorem foldl_setter {α β} (p : α → Bool) (g : α → β) (l : List α) :
    ∀ acc : β,
      l.foldl (fun a x => if p x then g x else a) acc
        = (match lastHit p l with
           | some x => g x
           | none => acc) := by
  induction l with
  | nil => intro acc; simp [lastHit]
  | cons x xs ih =>
    intro acc
    rw [List.foldl_cons, ih, lastHit_cons]
    cases hfs : lastHit p xs with
    | some w => simp [optOr]
    | none => by_cases hx : p x <;> simp [optOr, hx]

theorem foldl_prod {α β γ} (f : β → α → β) (g : γ → α → γ) (h : β × γ → α → β × γ)
    (hh : ∀ acc x, h acc x = (f acc.1 x, g acc.2 x)) (l : List α) :
    ∀ acc, l.foldl h acc = (l.foldl f acc.1, l.foldl g acc.2) := by
  induction l with
  | nil => intro acc; rfl
  | cons x xs ih =>
    intro acc
    rw [List.foldl_cons, hh, ih]
    rfl

/-- C4 counterexample: a tab after the key token. The claim admits any
whitespace after `font_family`, but the code matches only the literal
`"font_family "` (key plus one space): the family stays empty instead
of the claimed "Arial". -/
theorem C4_counterexample :
    get ["font_family\tArial"] = ⟨"", "default"⟩ ∧
    ¬ ((get ["font_family\tArial"]).family = "Arial") := by
  refine ⟨by decide, by decide⟩

/-- C4 amended: `get` returns the family of the last line starting
with the literal `"font_family "` (key plus a single space — not
arbitrary whitespace), the remainder stripped of repeated leading
`"font_family "` prefixes and trimmed; the size text analogously from
the last line starting with `"font_size "` when its trimmed remainder
parses as an `f32` number, else the literal "default"; missing keys
give `""` and "default", never an error. -/
theorem C4_get_last_line (lines : List String) :
    get lines
      = ⟨(match lastHit (fun l => startsWithStr "font_family " l) lines with
          | some l => rustTrim (trimStartMatches "font_family " l)
          | none => ""),
         (match lastHit (fun l => startsWithStr "font_size " l) lines with
          | some l =>
            if parsesAsF32 (rustTrim (trimStartMatches "font_size " l))
            then rustTrim (trimStartMatches "font_size " l) else "default"
          | none => "default")⟩ := by
  unfold get
  rw [foldl_prod
    (fun a line =>
      if startsWithStr "font_family " line
      then some (rustTrim (trimStartMatches "font_family " line)) else a)
    (fun a line =>
      if startsWithStr "font_size " line
      then (if parsesAsF32 (rustTrim (trimStartMatches "font_size " line))
            then some (rustTrim (trimStartMatches "font_size " line)) else none)
      else a)
    _ ?hh lines (none, none)]
  case hh =>
    intro acc line
    by_cases hf : startsWithStr "font_family " line
    · have hs := family_size_disjoint line hf
      simp [hf, hs]
    · by_cases hs : startsWithStr "font_size " line <;> simp [hf, hs]
  rw [foldl_setter (fun l => startsWithStr "font_family " l)
        (fun l => some (rustTrim (trimStartMatches "font_family " l))) lines none,
      foldl_setter (fun l => startsWithStr "font_size " l)
        (fun l =>
          if parsesAsF32 (rustTrim (trimStartMatches "font_size " l))
          then some (rustTrim (trimStartMatches "font_size " l)) else none) lines none]
  cases h1 : lastHit (fun l => startsWithStr "font_family " l) lines <;>
    cases h2 : lastHit (fun l => startsWithStr "font_size " l) lines <;>
      simp [FontSettings.mk.injEq]
  all_goals (first
    | rfl
    | (rename_i l2
       by_cases hp : parsesAsF32 (rustTrim (trimStartMatches "font_size " l2)) <;> simp [hp]))


/-! ### C2 -/

theorem rewriteLine_of_not_matches (value : String) {key line : String}
    (h : lineMatches key line = false) : rewriteLine key value line = line := by
  unfold rewriteLine
  unfold lineMatches at h
  cases hd : dropPrefixChars key.data line.data with
  | none => rfl
  | some rest =>
    rw [hd] at h
    cases rest with
    | nil => rfl
    | cons c cs =>
      have h2 : rustWS c = false := h
      show (if rustWS c = true
            then String.mk (key.data ++ (c :: cs).takeWhile rustWS ++ value.data)
            else line) = line
      rw [if_neg (by simp [h2])]

theorem rewriteLine_of_matches (value : String) {key line : String}
    (h : lineMatches key line = true) :
    ∃ w r, line.data = key.data ++ w ++ r ∧ w ≠ [] ∧
      (∀ c ∈ w, rustWS c = true) ∧ r.takeWhile rustWS = [] ∧
      (rewriteLine key value line).data = key.data ++ w ++ value.data := by
  unfold rewriteLine
  unfold lineMatches at h
  cases hd : dropPrefixChars key.data line.data with
  | none => rw [hd] at h; exact Bool.noConfusion h
  | some rest =>
    rw [hd] at h
    cases rest with
    | nil => exact Bool.noConfusion h
    | cons c cs =>
      have hc : rustWS c = true := h
      refine ⟨(c :: cs).takeWhile rustWS, (c :: cs).dropWhile rustWS, ?_, ?_, ?_, ?_, ?_⟩
      · rw [List.append_assoc, List.takeWhile_append_dropWhile]
        exact dropPrefixChars_eq_some.mp hd
      · simp [List.takeWhile_cons, hc]
      · intro x hx; exact mem_takeWhile_rustWS hx
      · exact takeWhile_dropWhile_nil rustWS (c :: cs)
      · show (if rustWS c = true
              then String.mk (key.data ++ (c :: cs).takeWhile rustWS ++ value.data)
              else line).data = key.data ++ (c :: cs).takeWhile rustWS ++ value.data
        rw [if_pos hc]

/-- A line consisting of the key followed by whitespace only (or by
nothing). Excluded by C2's hypotheses: on such a line the real regex's
greedy `\s+` runs past the end of the line and captures across the
newline, which the line-wise model does not reproduce. -/
def keyOnlyWSLine (key line : String) : Bool :=
  match dropPrefixChars key.data line.data with
  | some rest => rest.all rustWS
  | none => false

/-- C2 counterexample: the code rewrites with `replace_all`, so a file
with two `font_family` lines has BOTH rewritten. The claim required the
second line to stay byte-identical ("font_family B"), but it becomes
"font_family New Font". -/
theorem C2_counterexample :
    replace_font_family ["New Font"] "NewFont" ["font_family A", "font_family B"]
      = Except.ok ["font_family New Font", "font_family New Font"] ∧
    ¬ ((apply_regex_replace "font_family" "New Font"
        ["font_family A", "font_family B"])[1]? = some "font_family B") := by
  refine ⟨rfl, by decide⟩

/-- C2 amended: the rewrite touches EVERY line matching the anchored
key directive — not only the first — replacing its value portion while
keeping the key and the whitespace run; every non-matching line is
byte-identical, and the line count is preserved. The hypotheses pin
down the faithful domain of the line-wise model: the replacement value
carries no newline, and no line is the bare key followed only by
whitespace (on such lines the real regex would capture across the
newline). -/
theorem C2_replace_frame (key value : String) (lines : List String)
    (hval : value.data.all (fun c => c != '\n') = true)
    (hkey : ∀ l ∈ lines, keyOnlyWSLine key l = false) :
    (apply_regex_replace key value lines).length = lines.length ∧
    (∀ l ∈ lines, lineMatches key l = false → rewriteLine key value l = l) ∧
    (∀ l ∈ lines, lineMatches key l = true →
      ∃ w r, l.data = key.data ++ w ++ r ∧ w ≠ [] ∧ (∀ c ∈ w, rustWS c = true) ∧
        (rewriteLine key value l).data = key.data ++ w ++ value.data) := by
  refine ⟨by simp [apply_regex_replace], ?_, ?_⟩
  · intro l _ h
    exact rewriteLine_of_not_matches value h
  · intro l _ h
    obtain ⟨w, r, h1, h2, h3, _, h5⟩ := rewriteLine_of_matches value h
    exact ⟨w, r, h1, h2, h3, h5⟩

theorem C2_witness :
    (apply_regex_replace "font_family" "Fira Code" ["font_family Arial", "# c"]).length = 2 ∧
    rewriteLine "font_family" "Fira Code" "# c" = "# c" := by
  have h := C2_replace_frame "font_family" "Fira Code" ["font_family Arial", "# c"]
    (by decide) (by decide)
  exact ⟨h.1, h.2.1 "# c" (by simp) (by decide)⟩

/-! ### C8 -/

/-- A line of the shape the rewrite produces is a fixed point of the
rewrite, provided the value starts with no whitespace. -/
theorem rewriteLine_fixed {key value line : String} {c : Char} {cs : List Char}
    (hdata : line.data = key.data ++ (c :: cs) ++ value.data)
    (hws : ∀ x ∈ c :: cs, rustWS x = true)
    (hv : value.data.takeWhile rustWS = []) :
    rewriteLine key value line = line := by
  have hc : rustWS c = true := hws c (by simp)
  have hdp : dropPrefixChars key.data line.data = some (c :: (cs ++ value.data)) := by
    rw [hdata, List.append_assoc, List.cons_append]
    exact dropPrefixChars_append _ _
  have htw : (c :: (cs ++ value.data)).takeWhile rustWS = c :: cs := by
    rw [← List.cons_append]
    exact takeWhile_append_of_all hws hv
  apply String.ext
  unfold rewriteLine
  rw [hdp]
  show (if rustWS c = true
        then String.mk (key.data ++ (c :: (cs ++ value.data)).takeWhile rustWS ++ value.data)
        else line).data = line.data
  rw [if_pos hc, htw, hdata]

theorem rewriteLine_idem (key value line : String)
    (hv : value.data.takeWhile rustWS = []) :
    rewriteLine key value (rewriteLine key value line) = rewriteLine key value line := by
  cases hm : lineMatches key line with
  | false =>
    rw [rewriteLine_of_not_matches value hm]
    exact rewriteLine_of_not_matches value hm
  | true =>
    obtain ⟨w, r, h1, h2, h3, h4, h5⟩ := rewriteLine_of_matches value hm
    obtain ⟨c, cs, rfl⟩ : ∃ c cs, w = c :: cs := by
      cases w with
      | nil => exact absurd rfl h2
      | cons c cs => exact ⟨c, cs, rfl⟩
    exact rewriteLine_fixed h5 h3 hv

theorem apply_regex_replace_idem (key value : String)
    (hv : value.data.takeWhile rustWS = []) (lines : List String) :
    apply_regex_replace key value (apply_regex_replace key value lines)
      = apply_regex_replace key value lines := by
  unfold apply_regex_replace
  rw [List.map_map]
  apply List.map_congr_left
  intro l _
  exact rewriteLine_idem key value l hv

/-- C8: `replace_font_size(14.0)` twice gives the same file as once,
for every configuration file: the rendered value "14" starts with a
non-whitespace character and contains no newline, so every line the
first pass rewrites is rewritten to itself by the second. -/
theorem C8_replace_size_idempotent (lines : List String) :
    replace_font_size ⟨140, 1⟩ (replace_font_size ⟨140, 1⟩ lines)
      = replace_font_size ⟨140, 1⟩ lines := by
  unfold replace_font_size
  exact apply_regex_replace_idem "font_size" (fmtF32 ⟨140, 1⟩) (by decide) lines


/-! ### C5 -/

/-- The in-panel step adds exactly one half to the current value. -/
theorem addHalf_val (d : Dec) : (addHalf d).val = d.val + 1 / 2 := by
  unfold addHalf Dec.val
  push_cast
  field_simp
  ring

end Nekifoch
